import Mathlib

/-!
Verification development for the Unscribe subscription-scanning system.

The repository's visible source is the dashboard/API layer
(`src/CI/api.ts`, `src/CI/dashboard.tsx`,
`src/frontend/src/app/auth/callback/page.tsx`, `src/unnamed/part_003`);
those parts are embedded directly from the code.  The core pipeline
(scan orchestrator, merge & dedup engine, unsubscribe action
orchestrator) is not present in the repository source; it is modelled
from the specification, as marked on each definition.
-/

namespace Unscribe

/-! ## Core data model (modelled from the spec, §3) -/

/-- Modelled from the spec: billing period enumeration of a `Subscription`. -/
inductive Period where
  | monthly | yearly | weekly | quarterly | unknown
  deriving DecidableEq, Repr

/-- Modelled from the spec: status of a `Subscription`
(`active|cancelled|pending_cancellation|unknown`). -/
inductive SubStatus where
  | active | cancelled | pending_cancellation | unknown
  deriving DecidableEq, Repr

/-- Modelled from the spec: the validated output of the Semantic
Classifier for one candidate (§4.3).  Confidence is on a 0–100 scale
(the spec's 0–1 score in hundredths). -/
structure Fields where
  serviceName : String
  currency : String
  price : Int
  period : Period
  conf : Nat
  deriving DecidableEq, Repr

/-- Modelled from the spec: the durable `Subscription` entity (§3).
The merge engine compares service names through `normName`, so the
stored name is kept raw here; only id-key fields, price, period,
status and the rolling confidence are modelled. -/
structure Subscription where
  serviceName : String
  currency : String
  price : Int
  period : Period
  status : SubStatus
  conf : Nat
  deriving DecidableEq, Repr

/-! ## Merge & Dedup Engine (modelled from the spec, §4.4) -/

/-- Modelled from the spec: case-insensitive, punctuation-stripped
normalization of a service name used by the identity key (§4.4). -/
def normName (s : String) : String :=
  String.mk ((s.data.filter Char.isAlphanum).map Char.toLower)

/-- Modelled from the spec: the ±10% price-tolerance band of the
identity comparison (§4.4): the new price is within 10% of the
existing subscription's price. -/
def withinTol (newP oldP : Int) : Bool :=
  10 * ((newP - oldP).natAbs : Int) ≤ oldP

/-- Identity key of a classified field set: normalized service name
plus currency (§4.4). -/
def keyOf (f : Fields) : String × String :=
  (normName f.serviceName, f.currency)

/-- Identity key of a stored subscription. -/
def skeyOf (s : Subscription) : String × String :=
  (normName s.serviceName, s.currency)

/-- Modelled from the spec: whether classified fields resolve to an
existing subscription row — non-cancelled rows only, matched by
normalized name, currency and the price-tolerance band (§4.4). -/
def fieldsMatch (f : Fields) (s : Subscription) : Bool :=
  (!decide (s.status = SubStatus.cancelled))
    && (normName f.serviceName == normName s.serviceName)
    && (f.currency == s.currency)
    && withinTol f.price s.price

/-- Modelled from the spec: the in-place update of a matched
subscription (§4.4 case 2/3): fields are updated where the new value's
confidence is at least the subscription's current confidence, and the
rolling confidence is raised (never lowered) to the maximum seen. -/
def updateSub (s : Subscription) (f : Fields) : Subscription :=
  { s with
    price := if s.conf ≤ f.conf then f.price else s.price
    period := if s.conf ≤ f.conf then f.period else s.period
    conf := max s.conf f.conf }

/-- Modelled from the spec: a newly created subscription from
classified fields (§4.4 case 1). -/
def mkSub (f : Fields) : Subscription :=
  ⟨f.serviceName, f.currency, f.price, f.period, SubStatus.active, f.conf⟩

/-- Modelled from the spec: the merge decision (§4.4) against a user's
subscription rows, with creation threshold `θ`.  The first matching
row is updated; with no match, a row is created exactly when the
confidence reaches the creation threshold, otherwise the candidate is
ignored. -/
def mergeSubs (θ : Nat) : List Subscription → Fields → List Subscription
  | [], f => if θ ≤ f.conf then [mkSub f] else []
  | s :: rest, f =>
    if fieldsMatch f s then updateSub s f :: rest
    else s :: mergeSubs θ rest f

/-! ## Scan Orchestrator (modelled from the spec, §4.1) -/

/-- Modelled from the spec: one mailbox message of a scan window.
`fields` is the composite outcome of the Candidate Extractor and
Semantic Classifier on this fixed message content (`none` covers both
"no candidate" and `ClassificationFailure`); it is a function of the
message content, hence fixed for an unchanged mailbox window. -/
structure Message where
  id : Nat
  fields : Option Fields
  deriving DecidableEq, Repr

/-- Modelled from the spec: the persistent state a scan session reads
and writes — `EmailMessageRef`s (by message id), the user's
subscription rows, and a counter of messages that went through the
extract/classify pipeline. -/
structure ScanState where
  refs : List Nat
  subs : List Subscription
  processed : Nat
  deriving DecidableEq, Repr

/-- Modelled from the spec: per-message step of the Scan Orchestrator
(§4.1): skip if an `EmailMessageRef` already exists (unless
`force_rescan`); otherwise extract/classify/merge, and record an
`EmailMessageRef` regardless of outcome. -/
def processMessage (θ : Nat) (force : Bool) (st : ScanState) (m : Message) : ScanState :=
  if !force && st.refs.contains m.id then st
  else
    let subs' := match m.fields with
      | none => st.subs
      | some f => mergeSubs θ st.subs f
    { refs := if st.refs.contains m.id then st.refs else m.id :: st.refs
      subs := subs'
      processed := st.processed + 1 }

/-- Modelled from the spec: a scan run over a mailbox window,
processing messages strictly sequentially (§5). -/
def runScan (θ : Nat) (force : Bool) (msgs : List Message) (st : ScanState) : ScanState :=
  msgs.foldl (processMessage θ force) st

/-- The empty persistent state before any scan. -/
def initState : ScanState := ⟨[], [], 0⟩

/-! ## Scan sessions and `start_scan` (modelled from the spec, §4.1/§3) -/

/-- Modelled from the spec: `ScanSession.status` enumeration (§3). -/
inductive SessionStatus where
  | pending | running | completed | failed | cancelled
  deriving DecidableEq, Repr

/-- Modelled from the spec: a `ScanSession` row (§3), reduced to the
attributes the concurrency claims are about. -/
structure ScanSession where
  sid : Nat
  user : Nat
  status : SessionStatus
  deriving DecidableEq, Repr

/-- Modelled from the spec: the synchronous error of `start_scan`
(§4.1, §7). -/
inductive StartScanError where
  | conflict
  deriving DecidableEq, Repr

/-- Whether a `running` session already exists for the user. -/
def hasRunning (sessions : List ScanSession) (u : Nat) : Bool :=
  sessions.any fun s => (s.user == u) && decide (s.status = SessionStatus.running)

/-- Modelled from the spec: `start_scan` session creation (§4.1).
Fails with `ConflictError` if a `running` session already exists for
the user; otherwise creates a new `running` session. -/
def start_scan (sessions : List ScanSession) (u : Nat) (nextId : Nat) :
    Except StartScanError (ScanSession × List ScanSession) :=
  if hasRunning sessions u then Except.error StartScanError.conflict
  else
    let ns : ScanSession := ⟨nextId, u, SessionStatus.running⟩
    Except.ok (ns, ns :: sessions)

/-- Modelled from the spec: at most one `running` session per user (§3). -/
def AtMostOneRunning (sessions : List ScanSession) : Prop :=
  ∀ u, (sessions.countP fun s =>
    (s.user == u) && decide (s.status = SessionStatus.running)) ≤ 1

/-- Modelled from the spec: the `force_rescan` flag defaults to
`false` when omitted (§4.1 contract). -/
def forceDefault (o : Option Bool) : Bool := o.getD false

/-- Modelled from the spec: the scan run as started through the
`start_scan(user, window, force_rescan=false)` contract, with the
optional flag. -/
def startScanRun (θ : Nat) (msgs : List Message) (st : ScanState)
    (force : Option Bool) : ScanState :=
  runScan θ (forceDefault force) msgs st

/-! ## Unsubscribe Action Orchestrator (modelled from the spec, §4.5) -/

/-- Modelled from the spec: the `UnsubscribeAction` state machine
states (§4.5). -/
inductive UAState where
  | requested | in_progress | awaiting_confirmation | confirmed | failed | timed_out
  deriving DecidableEq, Repr

/-- Modelled from the spec: an `UnsubscribeAction` together with the
status of its owning `Subscription` (§3, §4.5). -/
structure UABundle where
  state : UAState
  evidence : Option Nat
  failureReason : Option String
  subStatus : SubStatus
  deriving DecidableEq, Repr

/-- Modelled from the spec: the external occurrences driving the
state machine (§4.5): the external cancellation action is dispatched,
completes, or errors; a confirmation email is found; or the waiting
window expires. -/
inductive UAEvent where
  | dispatch
  | dispatchDone
  | dispatchFail (reason : String)
  | confirmEvidence (msgId : Nat)
  | expireWindow
  deriving DecidableEq, Repr

/-- Modelled from the spec: one transition of the unsubscribe state
machine (§4.5).  `none` means the event is not enabled in the current
state (terminal states have no transition).  A `confirmed` transition
records the evidence message id and sets the owning subscription's
status to `cancelled`; the `timed_out` transition leaves it as
`pending_cancellation`. -/
def uaStep (b : UABundle) (e : UAEvent) : Option UABundle :=
  match b.state, e with
  | UAState.requested, UAEvent.dispatch =>
      some { b with state := UAState.in_progress }
  | UAState.in_progress, UAEvent.dispatchDone =>
      some { b with state := UAState.awaiting_confirmation }
  | UAState.in_progress, UAEvent.dispatchFail r =>
      some { b with state := UAState.failed, failureReason := some r }
  | UAState.awaiting_confirmation, UAEvent.confirmEvidence m =>
      some { b with state := UAState.confirmed, evidence := some m,
                    subStatus := SubStatus.cancelled }
  | UAState.awaiting_confirmation, UAEvent.expireWindow =>
      some { b with state := UAState.timed_out }
  | _, _ => none

/-- Modelled from the spec: the state created by `request_cancellation`
(§4.5): a fresh action in `requested`, no evidence, the subscription
pending cancellation. -/
def uaInit : UABundle :=
  ⟨UAState.requested, none, none, SubStatus.pending_cancellation⟩

/-- Run the unsubscribe state machine over a list of events from the
initial state; `none` if some event was not enabled. -/
def uaRun (events : List UAEvent) : Option UABundle :=
  events.foldl (fun o e => o.bind (fun b => uaStep b e)) (some uaInit)

/-! ## API client surface (from `src/CI/api.ts`) -/

/-- One operation of the frontend `APIClient`, with the HTTP method and
endpoint it calls. -/
structure ApiOp where
  opName : String
  method : String
  path : String
  deriving DecidableEq, Repr

/-- The operations defined on `APIClient` in `src/CI/api.ts`, in source
order (the two `export*` helpers call `fetch` directly but are part of
the client's surface as well). -/
def apiClientOps : List ApiOp :=
  [⟨"getGoogleAuthURL", "GET", "/auth/google"⟩,
   ⟨"handleAuthCallback", "GET", "/auth/google/callback"⟩,
   ⟨"getCurrentUser", "GET", "/auth/me"⟩,
   ⟨"logout", "POST", "/auth/logout"⟩,
   ⟨"startScan", "POST", "/api/scan/start"⟩,
   ⟨"getScanStatus", "GET", "/api/scan/status/:sessionId"⟩,
   ⟨"getScanHistory", "GET", "/api/scan/history"⟩,
   ⟨"getSubscriptions", "GET", "/api/subscriptions"⟩,
   ⟨"getSubscription", "GET", "/api/subscriptions/:id"⟩,
   ⟨"cancelSubscription", "POST", "/api/subscriptions/:id/cancel"⟩,
   ⟨"getCancellationStatus", "GET", "/api/subscriptions/:id/cancel/status"⟩,
   ⟨"updateSubscription", "PATCH", "/api/subscriptions/:id"⟩,
   ⟨"deleteSubscription", "DELETE", "/api/subscriptions/:id"⟩,
   ⟨"getDashboardSummary", "GET", "/api/dashboard/summary"⟩,
   ⟨"getCategoryBreakdown", "GET", "/api/dashboard/categories"⟩,
   ⟨"getActivity", "GET", "/api/activity"⟩,
   ⟨"exportActivity", "GET", "/api/activity/export"⟩,
   ⟨"getSettings", "GET", "/api/settings"⟩,
   ⟨"updateSettings", "PATCH", "/api/settings"⟩,
   ⟨"deleteAccount", "DELETE", "/api/account"⟩,
   ⟨"exportAccountData", "GET", "/api/account/export"⟩]

/-- The client-side names of the six operations the spec says are the
only ones the core must expose (§6): `start_scan`, `get_scan_status`,
`list_subscriptions`, `request_cancellation`, `get_cancellation_status`
and the read-only `ActivityEvent` feed. -/
def coreOpNames : List String :=
  ["startScan", "getScanStatus", "getSubscriptions",
   "cancelSubscription", "getCancellationStatus", "getActivity"]

/-! ## `APIClient.request` (from `src/CI/api.ts` and `src/unnamed/part_003`) -/

/-- JavaScript truthiness of an optional string field: present and
non-empty. -/
def jsTruthy (o : Option String) : Bool :=
  match o with
  | some s => s != ""
  | none => false

/-- The error-payload fields the two `request` implementations read
from a parsed JSON body: `error.message` (nested), `detail`, and
`message`. -/
structure ErrorBody where
  errMsg : Option String
  detail : Option String
  message : Option String
  deriving DecidableEq, Repr

/-- An HTTP response as observed by `request`: the `ok` flag, the
numeric status, the result of `response.json()` (`none` when the body
does not parse as JSON) and the result of `response.text()` (`none`
when reading the body text rejects). -/
structure HttpResponse where
  ok : Bool
  status : Nat
  jsonBody : Option ErrorBody
  textBody : Option String
  deriving DecidableEq, Repr

/-- Outcome of one `request` call: the promise resolves with the
parsed JSON body, rejects with an `Error` carrying a message built by
`request`, or rejects with the `response.json()` parse failure on an
`ok` response whose body is not JSON. -/
inductive RequestOutcome where
  | resolved (body : ErrorBody)
  | thrown (msg : String)
  | parseFailure
  deriving DecidableEq, Repr

/-- Method `request` of `APIClient` in `src/CI/api.ts`: on a non-ok response the
body is parsed with a catch-fallback of `{error: {message: 'Unknown
error'}}` and the thrown message is `error.error?.message ||
`HTTP <status>``. -/
def requestCI (r : HttpResponse) : RequestOutcome :=
  if r.ok then
    match r.jsonBody with
    | some b => RequestOutcome.resolved b
    | none => RequestOutcome.parseFailure
  else
    let err := r.jsonBody.getD ⟨some "Unknown error", none, none⟩
    RequestOutcome.thrown
      (if jsTruthy err.errMsg then err.errMsg.getD ""
       else "HTTP " ++ toString r.status)

/-- Method `request` of `APIClient` in `src/unnamed/part_003`: on a non-ok
response the message starts as `HTTP <status>`, is replaced by the
first truthy of `error.message`, `detail`, `message` when the body
parses, and by `response.text() || `HTTP <status>`` (with catch
fallback `'Unknown error'`) when it does not. -/
def requestP3 (r : HttpResponse) : RequestOutcome :=
  if r.ok then
    match r.jsonBody with
    | some b => RequestOutcome.resolved b
    | none => RequestOutcome.parseFailure
  else
    RequestOutcome.thrown
      (match r.jsonBody with
       | some d =>
         if jsTruthy d.errMsg then d.errMsg.getD ""
         else if jsTruthy d.detail then d.detail.getD ""
         else if jsTruthy d.message then d.message.getD ""
         else "HTTP " ++ toString r.status
       | none =>
         let t := r.textBody.getD "Unknown error"
         if t != "" then t else "HTTP " ++ toString r.status)

/-! ## Dashboard filtering (from `src/CI/dashboard.tsx`) -/

/-- A subscription row as the dashboard sees it, reduced to the fields
`filteredSubscriptions` reads. -/
structure DashSub where
  service_name : String
  price : Int
  status : String
  deriving DecidableEq, Repr

/-- Lower-casing of a string, character by character
(`String.prototype.toLowerCase`). -/
def lowerStr (s : String) : String := s.map Char.toLower

/-- Boolean prefix test on character lists. -/
def prefixChars : List Char → List Char → Bool
  | [], _ => true
  | _ :: _, [] => false
  | a :: as, b :: bs => (a == b) && prefixChars as bs

/-- Boolean substring-occurrence test (`String.prototype.includes`):
does `needle` occur contiguously in `hay`? -/
def substrChars (needle : List Char) : List Char → Bool
  | [] => needle.isEmpty
  | c :: rest => prefixChars needle (c :: rest) || substrChars needle rest

/-- Substring test `String.prototype.includes` on strings. -/
def strIncludes (hay needle : String) : Bool :=
  substrChars needle.data hay.data

/-- The filter predicate of `filteredSubscriptions` in
`src/CI/dashboard.tsx`, mirroring its early-return structure. -/
def dashFilterPred (filter searchTerm : String) (sub : DashSub) : Bool :=
  if (filter != "all") && (sub.status != filter) then false
  else if (searchTerm != "")
      && !(strIncludes (lowerStr sub.service_name) (lowerStr searchTerm)) then false
  else true

/-- Definition `filteredSubscriptions` of `src/CI/dashboard.tsx`: filter by
status and case-insensitive name search, then sort by descending
price (`.sort((a, b) => b.price - a.price)`). -/
def filteredSubscriptions (subs : List DashSub) (filter searchTerm : String) :
    List DashSub :=
  (subs.filter (dashFilterPred filter searchTerm)).mergeSort
    fun a b => decide (b.price ≤ a.price)

/-! ## OAuth callback effect (from `src/frontend/src/app/auth/callback/page.tsx`) -/

/-- The component's `status` state. -/
inductive CbStatus where
  | loading | success | error
  deriving DecidableEq, Repr

/-- Backend response of `apiClient.handleAuthCallback`. -/
structure AuthCallbackResponse where
  user_id : String
  access_token : String
  deriving DecidableEq, Repr

/-- Observable outcome of one run of the callback page's `useEffect`:
the resulting `status` state, the error message if any, whether the
backend callback request was issued, and the `localStorage` writes
performed. -/
structure CallbackOutcome where
  status : CbStatus
  errorMsg : Option String
  backendCalled : Bool
  storageWrites : List (String × String)
  deriving DecidableEq, Repr

/-- The `useEffect` body of `AuthCallback`: bail out if already
processed; error out with no backend call when `code` or `state` is
missing (or empty, both falsy); otherwise mark processed and run the
backend callback, storing `user_id` and, when truthy, the access
token.  `api` is the backend call's result, relevant only when the
call is issued. -/
def runAuthCallback (processed : Bool) (code state : Option String)
    (api : Except String AuthCallbackResponse) : CallbackOutcome :=
  if processed then ⟨CbStatus.loading, none, false, []⟩
  else if !(jsTruthy code) || !(jsTruthy state) then
    ⟨CbStatus.error, some "Missing authorization code or state", false, []⟩
  else
    match api with
    | Except.ok r =>
      ⟨CbStatus.success, none, true,
        ("user_id", r.user_id)
          :: (if r.access_token != "" then [("access_token", r.access_token)] else [])⟩
    | Except.error e =>
      ⟨CbStatus.error, some (if e != "" then e else "Authentication failed"),
        true, []⟩

/-! ## Derived views of the merge engine (used by the idempotence analysis) -/

/-- The classified field sets of a message list, in order. -/
def fieldsOf (msgs : List Message) : List Fields := msgs.filterMap Message.fields

/-- The subscription row of a given identity key, if any. -/
def findKey (k : String × String) (subs : List Subscription) : Option Subscription :=
  subs.find? fun s => decide (skeyOf s = k)

/-- Identity keys of a row list, in order. -/
def keysOf (subs : List Subscription) : List (String × String) := subs.map skeyOf

/-- Single-subscription view of the merge decision: update the row
when it exists, create it when the confidence reaches the creation
threshold, otherwise ignore. -/
def merge1 (θ : Nat) (o : Option Subscription) (f : Fields) : Option Subscription :=
  match o with
  | some s => some (updateSub s f)
  | none => if θ ≤ f.conf then some (mkSub f) else none

/-- Per-key projection of the merge decision. -/
def mergeK (θ : Nat) (k : String × String) (o : Option Subscription) (f : Fields) :
    Option Subscription :=
  if keyOf f = k then merge1 θ o f else o

/-- Row lists reachable by merging price-coherent fields: active rows
with pairwise-distinct identity keys, positive prices given by the
per-key price function `P`, and confidence at least the creation
threshold `θ`. -/
def GoodState (P : String × String → Int) (θ : Nat) (subs : List Subscription) : Prop :=
  List.Pairwise (fun a b => skeyOf a ≠ skeyOf b) subs
  ∧ ∀ s ∈ subs, s.status = SubStatus.active ∧ s.price = P (skeyOf s)
      ∧ θ ≤ s.conf ∧ 0 < s.price

/-- Classified fields coherent with the per-key price function `P`. -/
def GoodF (P : String × String → Int) (f : Fields) : Prop :=
  f.price = P (keyOf f) ∧ 0 < f.price

/-! ## Lemmas: unsubscribe state machine -/

/-- Invariant tying the action state, the evidence and the owning
subscription's status together. -/
def UAInv (b : UABundle) : Prop :=
  (b.state = UAState.confirmed →
    b.evidence.isSome = true ∧ b.subStatus = SubStatus.cancelled)
  ∧ (b.subStatus = SubStatus.cancelled → b.state = UAState.confirmed)

theorem uaInit_inv : UAInv uaInit := by
  constructor <;> intro h <;> simp [uaInit] at h

theorem uaStep_inv {b b' : UABundle} {e : UAEvent} (hb : UAInv b)
    (h : uaStep b e = some b') : UAInv b' := by
  obtain ⟨st, ev, fr, ss⟩ := b
  obtain ⟨h1, h2⟩ := hb
  cases st <;> cases e <;> simp [uaStep] at h <;> subst h <;>
    constructor <;> intro hx <;> simp_all [UAInv]

theorem uaStep_confirmed {b₀ b₁ : UABundle} {e : UAEvent}
    (h : uaStep b₀ e = some b₁) (hc : b₁.state = UAState.confirmed) :
    b₁.subStatus = SubStatus.cancelled ∧ b₁.evidence.isSome = true := by
  obtain ⟨st, ev, fr, ss⟩ := b₀
  cases st <;> cases e <;> simp [uaStep] at h <;> subst h <;> simp_all

theorem uaFold_inv (events : List UAEvent) :
    ∀ (o : Option UABundle) (b : UABundle),
      events.foldl (fun o e => o.bind (fun b => uaStep b e)) o = some b →
      (∀ b₀, o = some b₀ → UAInv b₀) → UAInv b := by
  induction events with
  | nil =>
    intro o b h ho
    exact ho b h
  | cons e es ih =>
    intro o b h ho
    refine ih _ b h ?_
    intro b₀ h₀
    obtain ⟨a, ha, hstep⟩ := Option.bind_eq_some.mp h₀
    exact uaStep_inv (ho a ha) hstep

/-! ## Lemmas: confidence -/

theorem updateSub_conf (s : Subscription) (f : Fields) :
    (updateSub s f).conf = max s.conf f.conf := rfl

/-! ## Claim theorems C1, C3, C4, C6, C7 -/

/-- C1: a reachable unsubscribe-action state is never `confirmed`
without evidence; the owning subscription's status never becomes
`cancelled` unless the action is `confirmed`; any transition into
`confirmed` sets the subscription to `cancelled` (and records
evidence); and the merge engine never sets a subscription to
`cancelled` (updates keep the status, creations are `active`). -/
theorem claim_C1 (events : List UAEvent) (b : UABundle)
    (h : uaRun events = some b) :
    (b.state = UAState.confirmed →
      b.evidence.isSome = true ∧ b.subStatus = SubStatus.cancelled)
    ∧ (b.subStatus = SubStatus.cancelled → b.state = UAState.confirmed)
    ∧ (∀ (b₀ : UABundle) (e : UAEvent) (b₁ : UABundle),
        uaStep b₀ e = some b₁ → b₁.state = UAState.confirmed →
          b₁.subStatus = SubStatus.cancelled ∧ b₁.evidence.isSome = true)
    ∧ (∀ (s : Subscription) (f : Fields),
        (updateSub s f).status = s.status ∧ (mkSub f).status = SubStatus.active) := by
  have hinv : UAInv b := by
    refine uaFold_inv events (some uaInit) b h ?_
    intro b₀ h₀
    obtain rfl : uaInit = b₀ := by injection h₀
    exact uaInit_inv
  refine ⟨hinv.1, hinv.2, ?_, ?_⟩
  · intro b₀ e b₁ hstep hc
    exact uaStep_confirmed hstep hc
  · intro s f
    exact ⟨rfl, rfl⟩

/-- Witness for C1 at the trace dispatch → dispatched → confirmation
evidence (message 7). -/
theorem claim_C1_witness :
    (some 7 : Option Nat).isSome = true
    ∧ (UABundle.mk UAState.confirmed (some 7) none SubStatus.cancelled).subStatus
        = SubStatus.cancelled :=
  (claim_C1 [UAEvent.dispatch, UAEvent.dispatchDone, UAEvent.confirmEvidence 7]
    ⟨UAState.confirmed, some 7, none, SubStatus.cancelled⟩ rfl).1 rfl

/-- C3: the per-subscription merge step never lowers the rolling
confidence, and after any sequence of merges the stored confidence is
the running maximum of the initial confidence and every confidence
seen. -/
theorem claim_C3 :
    (∀ (s : Subscription) (f : Fields), s.conf ≤ (updateSub s f).conf)
    ∧ (∀ (s : Subscription) (l : List Fields),
        (l.foldl updateSub s).conf = l.foldl (fun c f => max c f.conf) s.conf)
    ∧ (∀ (s : Subscription) (l : List Fields), s.conf ≤ (l.foldl updateSub s).conf) := by
  have hfold : ∀ (l : List Fields) (s : Subscription),
      (l.foldl updateSub s).conf = l.foldl (fun c f => max c f.conf) s.conf := by
    intro l
    induction l with
    | nil => intro s; rfl
    | cons f l ih =>
      intro s
      simpa [updateSub_conf] using ih (updateSub s f)
  have hmax : ∀ (l : List Fields) (c : Nat), c ≤ l.foldl (fun c f => max c f.conf) c := by
    intro l
    induction l with
    | nil => intro c; exact le_refl c
    | cons f l ih =>
      intro c
      exact le_trans (Nat.le_max_left c f.conf) (ih _)
  refine ⟨?_, fun s l => hfold l s, ?_⟩
  · intro s f
    exact Nat.le_max_left s.conf f.conf
  · intro s l
    rw [hfold l s]
    exact hmax l s.conf

/-- C4: `start_scan` fails with `ConflictError` exactly when a
`running` session for the user already exists; on success the only new
session is the freshly created `running` one, and the at-most-one
`running`-session-per-user invariant is preserved. -/
theorem claim_C4 (sessions : List ScanSession) (u nextId : Nat) :
    (start_scan sessions u nextId = Except.error StartScanError.conflict
      ↔ ∃ s ∈ sessions, s.user = u ∧ s.status = SessionStatus.running)
    ∧ (∀ (ns : ScanSession) (sessions' : List ScanSession),
        start_scan sessions u nextId = Except.ok (ns, sessions') →
          sessions' = ns :: sessions
          ∧ ns = ⟨nextId, u, SessionStatus.running⟩
          ∧ (AtMostOneRunning sessions → AtMostOneRunning sessions')) := by
  have hchar : hasRunning sessions u = true
      ↔ ∃ s ∈ sessions, s.user = u ∧ s.status = SessionStatus.running := by
    simp [hasRunning, List.any_eq_true]
  by_cases h : hasRunning sessions u = true
  · refine ⟨?_, ?_⟩
    · simpa [start_scan, h] using hchar.mp h
    · intro ns sessions' hok
      simp [start_scan, h] at hok
  · have hscan : start_scan sessions u nextId =
        Except.ok (⟨nextId, u, SessionStatus.running⟩,
          (⟨nextId, u, SessionStatus.running⟩ : ScanSession) :: sessions) := by
      simp [start_scan, h]
    refine ⟨?_, ?_⟩
    · rw [hscan]
      constructor
      · intro hcontra
        exact absurd hcontra (by simp)
      · intro hex
        exact absurd (hchar.mpr hex) h
    · intro ns sessions' hok
      rw [hscan] at hok
      simp only [Except.ok.injEq, Prod.mk.injEq] at hok
      obtain ⟨hns, hsess⟩ := hok
      subst hns
      subst hsess
      refine ⟨rfl, rfl, ?_⟩
      intro hone u'
      rw [List.countP_cons]
      by_cases hu : u = u'
      · subst hu
        have hzero : sessions.countP
            (fun s => (s.user == u) && decide (s.status = SessionStatus.running)) = 0 := by
          rw [List.countP_eq_zero]
          intro s hs hps
          exact h (List.any_eq_true.mpr ⟨s, hs, hps⟩)
        simp [hzero]
      · have hfalse : (((⟨nextId, u, SessionStatus.running⟩ : ScanSession).user == u') &&
            decide ((⟨nextId, u, SessionStatus.running⟩ : ScanSession).status
              = SessionStatus.running)) = false := by
          simp [hu]
        rw [hfalse]
        simpa using hone u'

/-- Witness for C4: starting a scan with no existing sessions creates
one running session and keeps the invariant. -/
theorem claim_C4_witness :
    AtMostOneRunning [(⟨0, 1, SessionStatus.running⟩ : ScanSession)] :=
  ((claim_C4 [] 1 0).2 ⟨0, 1, SessionStatus.running⟩
      [⟨0, 1, SessionStatus.running⟩] rfl).2.2 fun _ => Nat.zero_le 1

/-- Counterexample for C6: `src/CI/api.ts` defines `updateSubscription`
(a PATCH on a subscription), which is not among the six core
operations the spec allows. -/
theorem claim_C6_counterexample :
    (ApiOp.mk "updateSubscription" "PATCH" "/api/subscriptions/:id") ∈ apiClientOps
    ∧ "updateSubscription" ∉ coreOpNames := by
  decide

/-- C6 (amended): the API client consumes all six core operations, but
also direct subscription update and delete operations as well as
settings and account mutation — the six are not the whole surface. -/
theorem claim_C6 :
    "startScan" ∈ apiClientOps.map ApiOp.opName
    ∧ "getScanStatus" ∈ apiClientOps.map ApiOp.opName
    ∧ "getSubscriptions" ∈ apiClientOps.map ApiOp.opName
    ∧ "cancelSubscription" ∈ apiClientOps.map ApiOp.opName
    ∧ "getCancellationStatus" ∈ apiClientOps.map ApiOp.opName
    ∧ "getActivity" ∈ apiClientOps.map ApiOp.opName
    ∧ "updateSubscription" ∈ apiClientOps.map ApiOp.opName
    ∧ "deleteSubscription" ∈ apiClientOps.map ApiOp.opName
    ∧ "updateSettings" ∈ apiClientOps.map ApiOp.opName
    ∧ "deleteAccount" ∈ apiClientOps.map ApiOp.opName := by
  decide

/-- C7: a scan started without the optional `force_rescan` flag runs
exactly as with `force_rescan = false`, and under that default a
message with an existing `EmailMessageRef` is skipped outright. -/
theorem claim_C7 (θ : Nat) (msgs : List Message) (st : ScanState) :
    startScanRun θ msgs st none = startScanRun θ msgs st (some false)
    ∧ (∀ m : Message, m.id ∈ st.refs →
        processMessage θ (forceDefault none) st m = st) := by
  constructor
  · rfl
  · intro m hm
    have hc : st.refs.contains m.id = true := List.elem_eq_true_of_mem hm
    simp only [processMessage, forceDefault, Option.getD_none, Bool.not_false,
      Bool.true_and, hc, if_true]

/-- Witness for C7: a one-ref state skips the referenced message. -/
theorem claim_C7_witness :
    processMessage 60 (forceDefault none) ⟨[5], [], 0⟩ ⟨5, none⟩ = ⟨[5], [], 0⟩ :=
  (claim_C7 60 [] ⟨[5], [], 0⟩).2 ⟨5, none⟩ (by decide)

/-! ## Claim theorems C8, C9, C10 -/

/-- Counterexample for C8: on a 404 whose JSON body carries only a
`detail` field, `request` of `src/CI/api.ts` throws `HTTP 404`, not
the `detail` text — the claim's "error.message, detail, or message"
provenance does not hold for this implementation. -/
theorem claim_C8_counterexample :
    requestCI ⟨false, 404, some ⟨none, some "Not found", none⟩, some "x"⟩
      = RequestOutcome.thrown "HTTP 404"
    ∧ requestCI ⟨false, 404, some ⟨none, some "Not found", none⟩, some "x"⟩
      ≠ RequestOutcome.thrown "Not found" := by
  constructor
  · rfl
  · decide

/-- C8 (amended): neither `request` implementation ever resolves on a
non-ok response; both resolve with the parsed body exactly on ok
responses with parseable bodies.  On non-ok responses the `CI/api.ts`
version throws `error.error.message` when present and non-empty and
otherwise `HTTP <status>` (with `Unknown error` when the body is not
JSON) — it never consults `detail` or `message`; the `part_003`
version falls back from `error.message` through `detail` and `message`
to `HTTP <status>`, and on an unparseable body uses the response text
(default `Unknown error`), with `HTTP <status>` only for empty text. -/
theorem claim_C8 (r : HttpResponse) :
    (r.ok = false →
      (∃ m, requestCI r = RequestOutcome.thrown m)
      ∧ (∃ m, requestP3 r = RequestOutcome.thrown m))
    ∧ (∀ b : ErrorBody, requestCI r = RequestOutcome.resolved b
        ↔ r.ok = true ∧ r.jsonBody = some b)
    ∧ (∀ b : ErrorBody, requestP3 r = RequestOutcome.resolved b
        ↔ r.ok = true ∧ r.jsonBody = some b)
    ∧ (∀ (b : ErrorBody) (m : String), r.ok = false → r.jsonBody = some b →
        b.errMsg = some m → m ≠ "" →
        requestCI r = RequestOutcome.thrown m ∧ requestP3 r = RequestOutcome.thrown m)
    ∧ (∀ b : ErrorBody, r.ok = false → r.jsonBody = some b →
        jsTruthy b.errMsg = false →
        requestCI r = RequestOutcome.thrown ("HTTP " ++ toString r.status))
    ∧ (∀ (b : ErrorBody) (d : String), r.ok = false → r.jsonBody = some b →
        jsTruthy b.errMsg = false → b.detail = some d → d ≠ "" →
        requestP3 r = RequestOutcome.thrown d)
    ∧ (∀ (b : ErrorBody) (m : String), r.ok = false → r.jsonBody = some b →
        jsTruthy b.errMsg = false → jsTruthy b.detail = false →
        b.message = some m → m ≠ "" →
        requestP3 r = RequestOutcome.thrown m)
    ∧ (∀ b : ErrorBody, r.ok = false → r.jsonBody = some b →
        jsTruthy b.errMsg = false → jsTruthy b.detail = false →
        jsTruthy b.message = false →
        requestP3 r = RequestOutcome.thrown ("HTTP " ++ toString r.status))
    ∧ (r.ok = false → r.jsonBody = none →
        requestCI r = RequestOutcome.thrown "Unknown error"
        ∧ (∀ t : String, r.textBody = some t → t ≠ "" →
            requestP3 r = RequestOutcome.thrown t)
        ∧ (r.textBody = some "" →
            requestP3 r = RequestOutcome.thrown ("HTTP " ++ toString r.status))
        ∧ (r.textBody = none →
            requestP3 r = RequestOutcome.thrown "Unknown error")) := by
  obtain ⟨ok, status, jb, tb⟩ := r
  refine ⟨?_, ?_, ?_, ?_, ?_, ?_, ?_, ?_, ?_⟩
  · rintro rfl
    cases jb <;> exact ⟨⟨_, rfl⟩, ⟨_, rfl⟩⟩
  · intro b
    cases ok <;> cases jb <;> simp [requestCI]
  · intro b
    cases ok <;> cases jb <;> simp [requestP3]
  · rintro b m rfl hjb hmsg hne
    simp only at hjb
    subst hjb
    have ht : jsTruthy (some m) = true := by
      simp [jsTruthy, hne]
    constructor
    · simp [requestCI, hmsg, ht]
    · simp [requestP3, hmsg, ht]
  · rintro b rfl hjb ht
    simp only at hjb
    subst hjb
    simp [requestCI, ht]
  · rintro b d rfl hjb ht hd hdne
    simp only at hjb
    subst hjb
    have htd : jsTruthy (some d) = true := by
      simp [jsTruthy, hdne]
    simp [requestP3, ht, hd, htd]
  · rintro b m rfl hjb ht htd hm hmne
    simp only at hjb
    subst hjb
    have htm : jsTruthy (some m) = true := by
      simp [jsTruthy, hmne]
    simp [requestP3, ht, htd, hm, htm]
  · rintro b rfl hjb ht htd htm
    simp only at hjb
    subst hjb
    simp [requestP3, ht, htd, htm]
  · rintro rfl hjb
    simp only at hjb
    subst hjb
    refine ⟨rfl, ?_, ?_, ?_⟩
    · rintro t rfl hne
      simp [requestP3, hne]
    · rintro rfl
      simp [requestP3]
    · rintro rfl
      simp [requestP3]

/-- Witness for C8 at a concrete 500 response whose body carries a
non-empty `error.message`. -/
theorem claim_C8_witness :
    requestCI ⟨false, 500, some ⟨some "boom", some "d", some "m"⟩, some "t"⟩
      = RequestOutcome.thrown "boom"
    ∧ requestP3 ⟨false, 500, some ⟨some "boom", some "d", some "m"⟩, some "t"⟩
      = RequestOutcome.thrown "boom" :=
  (claim_C8 ⟨false, 500, some ⟨some "boom", some "d", some "m"⟩, some "t"⟩).2.2.2.1
    ⟨some "boom", some "d", some "m"⟩ "boom" rfl rfl rfl (by decide)

/-- The dashboard filter predicate, characterized positively. -/
theorem dashFilterPred_iff (filter searchTerm : String) (sub : DashSub) :
    dashFilterPred filter searchTerm sub = true
    ↔ (filter = "all" ∨ sub.status = filter)
      ∧ (searchTerm = ""
        ∨ strIncludes (lowerStr sub.service_name) (lowerStr searchTerm) = true) := by
  unfold dashFilterPred
  split_ifs with h1 h2
  · simp only [Bool.and_eq_true, bne_iff_ne] at h1
    simp [h1.1, h1.2]
  · simp only [Bool.and_eq_true, bne_iff_ne, Bool.not_eq_true'] at h2
    simp [h2.1, h2.2]
  · simp only [Bool.and_eq_true, bne_iff_ne, Bool.not_eq_true', not_and] at h1 h2
    constructor
    · intro _
      constructor
      · by_cases hf : filter = "all"
        · exact Or.inl hf
        · right
          by_contra hsf
          exact (h1 hf) hsf
      · by_cases hterm : searchTerm = ""
        · exact Or.inl hterm
        · cases hi : strIncludes (lowerStr sub.service_name) (lowerStr searchTerm) with
          | false => exact absurd hi (h2 hterm)
          | true => exact Or.inr rfl
    · intro _
      rfl

/-- C9: `filteredSubscriptions` contains exactly the subscriptions
passing the status filter (or `all`) and the case-insensitive name
search (or empty term), and its output is non-increasing in price. -/
theorem claim_C9 (subs : List DashSub) (filter searchTerm : String) :
    (∀ s : DashSub, s ∈ filteredSubscriptions subs filter searchTerm
      ↔ s ∈ subs ∧ (filter = "all" ∨ s.status = filter)
        ∧ (searchTerm = ""
          ∨ strIncludes (lowerStr s.service_name) (lowerStr searchTerm) = true))
    ∧ List.Pairwise (fun a b => b.price ≤ a.price)
        (filteredSubscriptions subs filter searchTerm) := by
  constructor
  · intro s
    rw [filteredSubscriptions, List.mem_mergeSort, List.mem_filter, dashFilterPred_iff]
  · refine List.Pairwise.imp ?_
      (List.sorted_mergeSort ?_ ?_ (subs.filter (dashFilterPred filter searchTerm)))
    · intro a b hab
      simpa using hab
    · intro a b c hab hbc
      simp only [decide_eq_true_eq] at *
      exact le_trans hbc hab
    · intro a b
      rcases le_total a.price b.price with h | h <;> simp [h]

/-- C10: a missing `code` or `state` parameter makes the callback page
set the error status with no backend request and no localStorage
write; the backend callback is issued only on a fresh (unprocessed)
run with both parameters present (and non-empty). -/
theorem claim_C10 (code stateQ : Option String)
    (api : Except String AuthCallbackResponse) :
    ((code = none ∨ stateQ = none) →
      runAuthCallback false code stateQ api
        = ⟨CbStatus.error, some "Missing authorization code or state", false, []⟩)
    ∧ (∀ processed : Bool,
        (runAuthCallback processed code stateQ api).backendCalled = true →
          processed = false
          ∧ (∃ c, code = some c ∧ c ≠ "")
          ∧ (∃ s, stateQ = some s ∧ s ≠ "")) := by
  constructor
  · rintro (rfl | rfl)
    · simp [runAuthCallback, jsTruthy]
    · simp [runAuthCallback, jsTruthy]
  · intro processed h
    cases processed
    · refine ⟨rfl, ?_⟩
      by_cases hmiss : (!(jsTruthy code) || !(jsTruthy stateQ)) = true
      · simp [runAuthCallback, hmiss] at h
      · have hcode : jsTruthy code = true := by
          cases hc : jsTruthy code with
          | true => rfl
          | false => exact absurd (by simp [hc]) hmiss
        have hstate : jsTruthy stateQ = true := by
          cases hc : jsTruthy stateQ with
          | true => rfl
          | false => exact absurd (by simp [hc]) hmiss
        constructor
        · cases code with
          | none => simp [jsTruthy] at hcode
          | some c =>
            refine ⟨c, rfl, ?_⟩
            simpa [jsTruthy] using hcode
        · cases stateQ with
          | none => simp [jsTruthy] at hstate
          | some s =>
            refine ⟨s, rfl, ?_⟩
            simpa [jsTruthy] using hstate
    · simp [runAuthCallback] at h

/-- Witness for C10: with `code` absent the component errors out,
issues no backend call and writes nothing. -/
theorem claim_C10_witness :
    runAuthCallback false none (some "st") (Except.ok ⟨"u", "t"⟩)
      = ⟨CbStatus.error, some "Missing authorization code or state", false, []⟩ :=
  (claim_C10 none (some "st") (Except.ok ⟨"u", "t"⟩)).1 (Or.inl rfl)

/-! ## Lemmas: `EmailMessageRef` skipping and resumability -/

theorem processMessage_skip {θ : Nat} {st : ScanState} {m : Message}
    (h : m.id ∈ st.refs) : processMessage θ false st m = st := by
  have hc : st.refs.contains m.id = true := List.elem_eq_true_of_mem h
  simp [processMessage, hc, h]

theorem refs_mono_process (θ : Nat) (force : Bool) (st : ScanState) (m : Message)
    (a : Nat) (h : a ∈ st.refs) : a ∈ (processMessage θ force st m).refs := by
  unfold processMessage
  split_ifs with h1 h2
  · exact h
  · exact h
  · exact List.mem_cons_of_mem _ h

theorem refs_mono_run (θ : Nat) (force : Bool) (msgs : List Message) (st : ScanState)
    (a : Nat) (h : a ∈ st.refs) : a ∈ (runScan θ force msgs st).refs := by
  induction msgs generalizing st with
  | nil => exact h
  | cons m msgs ih => exact ih _ (refs_mono_process θ force st m a h)

theorem mem_refs_process_self (θ : Nat) (force : Bool) (st : ScanState) (m : Message) :
    m.id ∈ (processMessage θ force st m).refs := by
  unfold processMessage
  split_ifs with h1 h2
  · simp only [Bool.and_eq_true] at h1
    exact List.mem_of_elem_eq_true h1.2
  · exact List.mem_of_elem_eq_true h2
  · exact List.mem_cons_self _ _

theorem mem_refs_run (θ : Nat) (force : Bool) (msgs : List Message) (st : ScanState)
    (m : Message) : m ∈ msgs → m.id ∈ (runScan θ force msgs st).refs := by
  induction msgs generalizing st with
  | nil =>
    intro hm
    cases hm
  | cons m₀ msgs ih =>
    intro hm
    rcases List.mem_cons.mp hm with heq | hm'
    · subst heq
      exact refs_mono_run θ force msgs _ _ (mem_refs_process_self θ force st m)
    · exact ih (processMessage θ force st m₀) hm'

theorem runScan_skip_all (θ : Nat) (msgs : List Message) (st : ScanState)
    (h : ∀ m ∈ msgs, m.id ∈ st.refs) : runScan θ false msgs st = st := by
  induction msgs with
  | nil => rfl
  | cons m msgs ih =>
    show runScan θ false msgs (processMessage θ false st m) = st
    rw [processMessage_skip (h m (List.mem_cons_self m msgs))]
    exact ih fun m' hm' => h m' (List.mem_cons_of_mem m hm')

theorem runScan_idem_noforce (θ : Nat) (msgs : List Message) (st : ScanState) :
    runScan θ false msgs (runScan θ false msgs st) = runScan θ false msgs st :=
  runScan_skip_all θ msgs _ fun m hm => mem_refs_run θ false msgs st m hm

theorem runScan_append (θ : Nat) (force : Bool) (l l' : List Message) (st : ScanState) :
    runScan θ force (l ++ l') st = runScan θ force l' (runScan θ force l st) :=
  List.foldl_append _ _ l l'

theorem runScan_resume (θ n : Nat) (msgs : List Message) (st : ScanState) :
    runScan θ false msgs (runScan θ false (msgs.take n) st)
      = runScan θ false msgs st := by
  have hskip : runScan θ false (msgs.take n) (runScan θ false (msgs.take n) st)
      = runScan θ false (msgs.take n) st :=
    runScan_idem_noforce θ (msgs.take n) st
  calc runScan θ false msgs (runScan θ false (msgs.take n) st)
      = runScan θ false (msgs.take n ++ msgs.drop n)
          (runScan θ false (msgs.take n) st) := by
        rw [List.take_append_drop]
    _ = runScan θ false (msgs.drop n)
          (runScan θ false (msgs.take n) (runScan θ false (msgs.take n) st)) := by
        rw [runScan_append]
    _ = runScan θ false (msgs.drop n) (runScan θ false (msgs.take n) st) := by
        rw [hskip]
    _ = runScan θ false msgs st := by
        rw [← runScan_append, List.take_append_drop]

/-- C5: a scan interrupted after the first `n` messages and then
resumed over the same mail reaches exactly the state of an
uninterrupted run, and a message whose `EmailMessageRef` is already
present is skipped without any reclassification or write. -/
theorem claim_C5 (θ n : Nat) (msgs : List Message) :
    runScan θ false msgs (runScan θ false (msgs.take n) initState)
      = runScan θ false msgs initState
    ∧ (∀ (st : ScanState) (m : Message), m.id ∈ st.refs →
        processMessage θ false st m = st) :=
  ⟨runScan_resume θ n msgs initState, fun _ _ h => processMessage_skip h⟩

/-- Witness for C5: resuming over a one-message window already scanned
is a no-op, and a referenced message is skipped. -/
theorem claim_C5_witness :
    runScan 60 false [⟨3, none⟩]
        (runScan 60 false ([⟨3, none⟩].take 1) initState)
      = runScan 60 false [⟨3, none⟩] initState
    ∧ processMessage 60 false ⟨[3], [], 1⟩ ⟨3, none⟩ = ⟨[3], [], 1⟩ :=
  ⟨(claim_C5 60 1 [⟨3, none⟩]).1,
    (claim_C5 60 1 [⟨3, none⟩]).2 ⟨[3], [], 1⟩ ⟨3, none⟩ (by decide)⟩

/-! ## Lemmas: merge identity keys under price coherence -/

theorem skeyOf_updateSub (s : Subscription) (f : Fields) :
    skeyOf (updateSub s f) = skeyOf s := rfl

theorem skeyOf_mkSub (f : Fields) : skeyOf (mkSub f) = keyOf f := rfl

theorem fieldsMatch_iff {P : String × String → Int} {θ : Nat} {subs : List Subscription}
    {f : Fields} {s : Subscription} (hG : GoodState P θ subs) (hf : GoodF P f)
    (hs : s ∈ subs) : fieldsMatch f s = true ↔ keyOf f = skeyOf s := by
  obtain ⟨hstat, hprice, hconf, hpos⟩ := hG.2 s hs
  constructor
  · intro h
    simp only [fieldsMatch, Bool.and_eq_true, beq_iff_eq] at h
    show (normName f.serviceName, f.currency) = (normName s.serviceName, s.currency)
    rw [h.1.1.2, h.1.2]
  · intro hk
    have h1 : normName f.serviceName = normName s.serviceName := congrArg Prod.fst hk
    have h2 : f.currency = s.currency := congrArg Prod.snd hk
    have hp : f.price = s.price := by
      rw [hf.1, hk]
      exact hprice.symm
    simp only [fieldsMatch, Bool.and_eq_true, beq_iff_eq]
    refine ⟨⟨⟨?_, h1⟩, h2⟩, ?_⟩
    · simp [hstat]
    · unfold withinTol
      rw [hp]
      simp only [sub_self, Int.natAbs_zero, Nat.cast_zero, mul_zero, decide_eq_true_eq]
      exact le_of_lt hpos

theorem keysOf_mergeSubs_subset {θ : Nat} {f : Fields} :
    ∀ {subs : List Subscription} {k : String × String},
      k ∈ keysOf (mergeSubs θ subs f) → k ∈ keysOf subs ∨ k = keyOf f := by
  intro subs
  induction subs with
  | nil =>
    intro k hk
    unfold mergeSubs at hk
    split_ifs at hk with h
    · simp only [keysOf, List.map_cons, List.map_nil, List.mem_cons, skeyOf_mkSub,
        List.not_mem_nil, or_false] at hk
      exact Or.inr hk
    · simp [keysOf] at hk
  | cons s rest ih =>
    intro k hk
    unfold mergeSubs at hk
    split_ifs at hk with h
    · simp only [keysOf, List.map_cons, List.mem_cons, skeyOf_updateSub] at hk
      rcases hk with hk | hk
      · exact Or.inl (by simp only [keysOf, List.map_cons, List.mem_cons]; exact Or.inl hk)
      · exact Or.inl (by simp only [keysOf, List.map_cons, List.mem_cons]; exact Or.inr hk)
    · simp only [keysOf, List.map_cons, List.mem_cons] at hk
      rcases hk with hk | hk
      · exact Or.inl (by simp only [keysOf, List.map_cons, List.mem_cons]; exact Or.inl hk)
      · rcases ih hk with h' | h'
        · refine Or.inl ?_
          simp only [keysOf, List.map_cons, List.mem_cons]
          exact Or.inr (by simpa [keysOf] using h')
        · exact Or.inr h'

theorem goodState_mergeSubs {P : String × String → Int} {θ : Nat} {f : Fields}
    (hf : GoodF P f) :
    ∀ subs, GoodState P θ subs → GoodState P θ (mergeSubs θ subs f) := by
  intro subs
  induction subs with
  | nil =>
    intro _
    unfold mergeSubs
    split_ifs with h
    · refine ⟨List.pairwise_singleton _ _, ?_⟩
      intro s hs
      simp only [List.mem_singleton] at hs
      subst hs
      exact ⟨rfl, by rw [skeyOf_mkSub]; exact hf.1, h, hf.2⟩
    · exact ⟨List.Pairwise.nil, by simp⟩
  | cons s rest ih =>
    intro hG
    obtain ⟨hpw, hall⟩ := hG
    have hGrest : GoodState P θ rest :=
      ⟨(List.pairwise_cons.mp hpw).2, fun t ht => hall t (List.mem_cons_of_mem _ ht)⟩
    unfold mergeSubs
    split_ifs with h
    · obtain ⟨hs1, hs2, hs3, hs4⟩ := hall s (List.mem_cons_self _ _)
      have hkey : keyOf f = skeyOf s :=
        (fieldsMatch_iff ⟨hpw, hall⟩ hf (List.mem_cons_self _ _)).mp h
      constructor
      · rw [List.pairwise_cons] at hpw ⊢
        exact ⟨fun b hb => by rw [skeyOf_updateSub]; exact hpw.1 b hb, hpw.2⟩
      · intro t ht
        rcases List.mem_cons.mp ht with rfl | ht'
        · refine ⟨hs1, ?_, le_trans hs3 (Nat.le_max_left _ _), ?_⟩
          · rw [skeyOf_updateSub]
            show (if s.conf ≤ f.conf then f.price else s.price) = P (skeyOf s)
            split_ifs with hc
            · rw [← hkey]
              exact hf.1
            · exact hs2
          · show 0 < (if s.conf ≤ f.conf then f.price else s.price)
            split_ifs with hc
            · exact hf.2
            · exact hs4
        · exact hall t (List.mem_cons_of_mem _ ht')
    · have hkey : keyOf f ≠ skeyOf s := fun hk =>
        h ((fieldsMatch_iff ⟨hpw, hall⟩ hf (List.mem_cons_self _ _)).mpr hk)
      have ihrest := ih hGrest
      constructor
      · rw [List.pairwise_cons]
        refine ⟨?_, ihrest.1⟩
        intro b hb
        have hbk : skeyOf b ∈ keysOf (mergeSubs θ rest f) :=
          List.mem_map_of_mem skeyOf hb
        rcases keysOf_mergeSubs_subset hbk with hmem | heq
        · simp only [keysOf, List.mem_map] at hmem
          obtain ⟨t, ht, hteq⟩ := hmem
          rw [← hteq]
          exact (List.pairwise_cons.mp hpw).1 t ht
        · rw [heq]
          exact fun hcontra => hkey hcontra.symm
      · intro t ht
        rcases List.mem_cons.mp ht with rfl | ht'
        · exact hall _ (List.mem_cons_self _ _)
        · exact ihrest.2 t ht'

/-! ## Lemmas: per-key projection of the merge fold -/

theorem findKey_nil (k : String × String) : findKey k [] = none := rfl

theorem findKey_cons (k : String × String) (s : Subscription)
    (rest : List Subscription) :
    findKey k (s :: rest) = if skeyOf s = k then some s else findKey k rest := by
  by_cases h : skeyOf s = k
  · rw [if_pos h]
    unfold findKey
    exact List.find?_cons_of_pos _ (by simp [h])
  · rw [if_neg h]
    unfold findKey
    exact List.find?_cons_of_neg _ (by simp [h])

theorem findKey_mergeSubs {P : String × String → Int} {θ : Nat} {f : Fields}
    (hf : GoodF P f) :
    ∀ subs, GoodState P θ subs → ∀ k,
      findKey k (mergeSubs θ subs f) = mergeK θ k (findKey k subs) f := by
  intro subs
  induction subs with
  | nil =>
    intro _ k
    show findKey k (if θ ≤ f.conf then [mkSub f] else []) = mergeK θ k (findKey k []) f
    rw [findKey_nil]
    by_cases hθ : θ ≤ f.conf
    · rw [if_pos hθ]
      by_cases hk : keyOf f = k
      · rw [findKey_cons, if_pos ((skeyOf_mkSub f).trans hk)]
        simp [mergeK, merge1, hk, hθ]
      · rw [findKey_cons, if_neg (fun hc => hk ((skeyOf_mkSub f) ▸ hc)), findKey_nil]
        simp [mergeK, hk]
    · rw [if_neg hθ, findKey_nil]
      by_cases hk : keyOf f = k <;> simp [mergeK, merge1, hk, hθ]
  | cons s rest ih =>
    intro hG k
    obtain ⟨hpw, hall⟩ := hG
    have hGrest : GoodState P θ rest :=
      ⟨(List.pairwise_cons.mp hpw).2, fun t ht => hall t (List.mem_cons_of_mem _ ht)⟩
    by_cases hmatch : fieldsMatch f s = true
    · have hkey : keyOf f = skeyOf s :=
        (fieldsMatch_iff ⟨hpw, hall⟩ hf (List.mem_cons_self _ _)).mp hmatch
      have hms : mergeSubs θ (s :: rest) f = updateSub s f :: rest := by
        show (if fieldsMatch f s = true then updateSub s f :: rest
          else s :: mergeSubs θ rest f) = _
        rw [if_pos hmatch]
      rw [hms, findKey_cons, skeyOf_updateSub, findKey_cons]
      by_cases hsk : skeyOf s = k
      · rw [if_pos hsk, if_pos hsk]
        simp [mergeK, merge1, hkey.trans hsk]
      · rw [if_neg hsk, if_neg hsk]
        have hfk : keyOf f ≠ k := fun hc => hsk (hkey ▸ hc)
        simp [mergeK, hfk]
    · have hkey : keyOf f ≠ skeyOf s := fun hk =>
        hmatch ((fieldsMatch_iff ⟨hpw, hall⟩ hf (List.mem_cons_self _ _)).mpr hk)
      have hms : mergeSubs θ (s :: rest) f = s :: mergeSubs θ rest f := by
        show (if fieldsMatch f s = true then updateSub s f :: rest
          else s :: mergeSubs θ rest f) = _
        rw [if_neg hmatch]
      rw [hms, findKey_cons, findKey_cons]
      by_cases hsk : skeyOf s = k
      · rw [if_pos hsk, if_pos hsk]
        have hfk : keyOf f ≠ k := fun hc => hkey (hc.trans hsk.symm)
        simp [mergeK, hfk]
      · rw [if_neg hsk, if_neg hsk]
        exact ih hGrest k

theorem keysOf_mergeSubs_stable {P : String × String → Int} {θ : Nat} {f : Fields}
    (hf : GoodF P f) :
    ∀ subs, GoodState P θ subs →
      (keyOf f ∈ keysOf subs ∨ f.conf < θ) →
      keysOf (mergeSubs θ subs f) = keysOf subs := by
  intro subs
  induction subs with
  | nil =>
    intro _ hcond
    rcases hcond with hmem | hconf
    · simp [keysOf] at hmem
    · show keysOf (if θ ≤ f.conf then [mkSub f] else []) = keysOf []
      rw [if_neg (by omega)]
  | cons s rest ih =>
    intro hG hcond
    obtain ⟨hpw, hall⟩ := hG
    have hGrest : GoodState P θ rest :=
      ⟨(List.pairwise_cons.mp hpw).2, fun t ht => hall t (List.mem_cons_of_mem _ ht)⟩
    by_cases hmatch : fieldsMatch f s = true
    · have hms : mergeSubs θ (s :: rest) f = updateSub s f :: rest := by
        show (if fieldsMatch f s = true then updateSub s f :: rest
          else s :: mergeSubs θ rest f) = _
        rw [if_pos hmatch]
      rw [hms]
      simp [keysOf, skeyOf_updateSub]
    · have hkey : keyOf f ≠ skeyOf s := fun hk =>
        hmatch ((fieldsMatch_iff ⟨hpw, hall⟩ hf (List.mem_cons_self _ _)).mpr hk)
      have hms : mergeSubs θ (s :: rest) f = s :: mergeSubs θ rest f := by
        show (if fieldsMatch f s = true then updateSub s f :: rest
          else s :: mergeSubs θ rest f) = _
        rw [if_neg hmatch]
      rw [hms]
      simp only [keysOf, List.map_cons]
      have htail : keysOf (mergeSubs θ rest f) = keysOf rest := by
        apply ih hGrest
        rcases hcond with hmem | hconf
        · simp only [keysOf, List.map_cons, List.mem_cons] at hmem
          rcases hmem with heq | hmem
          · exact absurd heq hkey
          · exact Or.inl hmem
        · exact Or.inr hconf
      simp only [keysOf] at htail
      rw [htail]

theorem mem_keys_of_findKey_isSome {k : String × String} {subs : List Subscription}
    (h : (findKey k subs).isSome = true) : k ∈ keysOf subs := by
  unfold findKey at h
  rw [List.find?_isSome] at h
  obtain ⟨s, hs, hp⟩ := h
  simp only [decide_eq_true_eq] at hp
  exact hp ▸ List.mem_map_of_mem skeyOf hs

theorem findKey_eq_none_of_not_mem {k : String × String} {subs : List Subscription}
    (h : k ∉ keysOf subs) : findKey k subs = none := by
  unfold findKey
  rw [List.find?_eq_none]
  intro s hs
  simp only [decide_eq_true_eq]
  intro heq
  exact h (heq ▸ List.mem_map_of_mem skeyOf hs)

theorem eq_of_keys_findKey :
    ∀ (S T : List Subscription),
      List.Pairwise (fun a b => skeyOf a ≠ skeyOf b) S →
      keysOf S = keysOf T →
      (∀ k, findKey k S = findKey k T) → S = T := by
  intro S
  induction S with
  | nil =>
    intro T _ hkeys _
    cases T with
    | nil => rfl
    | cons t T' => simp [keysOf] at hkeys
  | cons s S' ih =>
    intro T hpw hkeys hfind
    cases T with
    | nil => simp [keysOf] at hkeys
    | cons t T' =>
      simp only [keysOf, List.map_cons, List.cons.injEq] at hkeys
      obtain ⟨hhead, htail⟩ := hkeys
      have hs : findKey (skeyOf s) (s :: S') = some s := by
        rw [findKey_cons, if_pos rfl]
      have ht : findKey (skeyOf s) (t :: T') = some t := by
        rw [findKey_cons, if_pos hhead.symm]
      have hst : s = t := by
        have hx := hfind (skeyOf s)
        rw [hs, ht] at hx
        injection hx
      subst hst
      congr 1
      refine ih T' (List.pairwise_cons.mp hpw).2 htail ?_
      intro k
      by_cases hk : k = skeyOf s
      · subst hk
        have hnot : skeyOf s ∉ keysOf S' := by
          intro hmem
          simp only [keysOf, List.mem_map] at hmem
          obtain ⟨u, hu, hueq⟩ := hmem
          exact ((List.pairwise_cons.mp hpw).1 u hu) hueq.symm
        have hnotT : skeyOf s ∉ keysOf T' := by
          simpa [keysOf, htail] using hnot
        rw [findKey_eq_none_of_not_mem hnot, findKey_eq_none_of_not_mem hnotT]
      · have hx := hfind k
        rw [findKey_cons, findKey_cons] at hx
        rw [if_neg (fun hc => hk hc.symm), if_neg (fun hc => hk hc.symm)] at hx
        exact hx

theorem goodState_foldl {P : String × String → Int} {θ : Nat} :
    ∀ (fs : List Fields) (subs : List Subscription), GoodState P θ subs →
      (∀ f ∈ fs, GoodF P f) → GoodState P θ (fs.foldl (mergeSubs θ) subs) := by
  intro fs
  induction fs with
  | nil =>
    intro subs hG _
    exact hG
  | cons f fs ih =>
    intro subs hG hfs
    exact ih _ (goodState_mergeSubs (hfs f (List.mem_cons_self _ _)) subs hG)
      fun g hg => hfs g (List.mem_cons_of_mem _ hg)

theorem findKey_foldl {P : String × String → Int} {θ : Nat} :
    ∀ (fs : List Fields) (subs : List Subscription), GoodState P θ subs →
      (∀ f ∈ fs, GoodF P f) → ∀ k,
      findKey k (fs.foldl (mergeSubs θ) subs) = fs.foldl (mergeK θ k) (findKey k subs) := by
  intro fs
  induction fs with
  | nil =>
    intro subs _ _ k
    rfl
  | cons f fs ih =>
    intro subs hG hfs k
    have hf := hfs f (List.mem_cons_self _ _)
    rw [List.foldl_cons, List.foldl_cons,
      ih _ (goodState_mergeSubs hf subs hG) (fun g hg => hfs g (List.mem_cons_of_mem _ hg)) k,
      findKey_mergeSubs hf subs hG k]

theorem keysOf_foldl_stable {P : String × String → Int} {θ : Nat} :
    ∀ (fs : List Fields) (subs : List Subscription), GoodState P θ subs →
      (∀ f ∈ fs, GoodF P f) →
      (∀ f ∈ fs, keyOf f ∈ keysOf subs ∨ f.conf < θ) →
      keysOf (fs.foldl (mergeSubs θ) subs) = keysOf subs := by
  intro fs
  induction fs with
  | nil =>
    intro subs _ _ _
    rfl
  | cons f fs ih =>
    intro subs hG hfs hcond
    have hf := hfs f (List.mem_cons_self _ _)
    have hstep : keysOf (mergeSubs θ subs f) = keysOf subs :=
      keysOf_mergeSubs_stable hf subs hG (hcond f (List.mem_cons_self _ _))
    rw [List.foldl_cons,
      ih _ (goodState_mergeSubs hf subs hG) (fun g hg => hfs g (List.mem_cons_of_mem _ hg))
        (fun g hg => by rw [hstep]; exact hcond g (List.mem_cons_of_mem _ hg)),
      hstep]

/-! ## Lemmas: single-subscription replay -/

theorem foldl_updateSub_conf :
    ∀ (gs : List Fields) (s : Subscription),
      (gs.foldl updateSub s).conf = gs.foldl (fun c f => max c f.conf) s.conf := by
  intro gs
  induction gs with
  | nil =>
    intro s
    rfl
  | cons f gs ih =>
    intro s
    exact ih (updateSub s f)

theorem foldl_max_init_le :
    ∀ (gs : List Fields) (c : Nat), c ≤ gs.foldl (fun c f => max c f.conf) c := by
  intro gs
  induction gs with
  | nil =>
    intro c
    exact le_refl c
  | cons f gs ih =>
    intro c
    exact le_trans (Nat.le_max_left _ _) (ih _)

theorem foldl_max_mem_le :
    ∀ (gs : List Fields) (c : Nat) (f : Fields), f ∈ gs →
      f.conf ≤ gs.foldl (fun c f => max c f.conf) c := by
  intro gs
  induction gs with
  | nil =>
    intro c f hf
    cases hf
  | cons g gs ih =>
    intro c f hf
    rcases List.mem_cons.mp hf with rfl | hf'
    · exact le_trans (Nat.le_max_right c f.conf) (foldl_max_init_le gs _)
    · exact ih _ f hf'

theorem foldl_max_absorb :
    ∀ (gs : List Fields) (c : Nat), (∀ f ∈ gs, f.conf ≤ c) →
      gs.foldl (fun c f => max c f.conf) c = c := by
  intro gs
  induction gs with
  | nil =>
    intro c _
    rfl
  | cons f gs ih =>
    intro c h
    have hm : max c f.conf = c := Nat.max_eq_left (h f (List.mem_cons_self _ _))
    rw [List.foldl_cons]
    show gs.foldl (fun c f => max c f.conf) (max c f.conf) = c
    rw [hm]
    exact ih c fun g hg => h g (List.mem_cons_of_mem _ hg)

theorem updateSub_keep {s : Subscription} {f : Fields} (h : f.conf < s.conf) :
    updateSub s f = s := by
  have hnc : ¬ s.conf ≤ f.conf := by omega
  unfold updateSub
  rw [if_neg hnc, if_neg hnc, Nat.max_eq_left (Nat.le_of_lt h)]

theorem foldl_updateSub_base :
    ∀ (gs : List Fields) (s : Subscription),
      (gs.foldl updateSub s).serviceName = s.serviceName
      ∧ (gs.foldl updateSub s).currency = s.currency
      ∧ (gs.foldl updateSub s).status = s.status := by
  intro gs
  induction gs with
  | nil =>
    intro s
    exact ⟨rfl, rfl, rfl⟩
  | cons f gs ih =>
    intro s
    exact ih (updateSub s f)

theorem updateSub_eq_of {a b : Subscription} {f : Fields}
    (ha : a.conf ≤ f.conf) (hb : b.conf ≤ f.conf)
    (hn : a.serviceName = b.serviceName) (hc : a.currency = b.currency)
    (hs : a.status = b.status) : updateSub a f = updateSub b f := by
  unfold updateSub
  rw [if_pos ha, if_pos hb, Nat.max_eq_right ha, Nat.max_eq_right hb]
  obtain ⟨an, ac, ap, aper, ast, acf⟩ := a
  obtain ⟨bn, bc, bp, bper, bst, bcf⟩ := b
  simp_all

theorem updateSub_self_like {s : Subscription} {f : Fields}
    (h1 : s.conf = f.conf) (h2 : s.period = f.period) (h3 : s.price = f.price) :
    updateSub s f = s := by
  obtain ⟨n, c, p, per, st, cf⟩ := s
  simp only at h1 h2 h3
  subst h1
  subst h2
  subst h3
  simp [updateSub]

theorem replay_fixpoint :
    ∀ (l : List Fields) (s₀ : Subscription) (f₀ : Fields),
      s₀.conf = f₀.conf → s₀.period = f₀.period → s₀.price = f₀.price →
      (∀ f ∈ l, f.price = s₀.price) →
      List.foldl updateSub (List.foldl updateSub s₀ l) (f₀ :: l)
        = List.foldl updateSub s₀ l := by
  intro l
  induction l using List.reverseRecOn with
  | nil =>
    intro s₀ f₀ h1 h2 h3 _
    show updateSub s₀ f₀ = s₀
    exact updateSub_self_like h1 h2 h3
  | append_singleton l g ih =>
    intro s₀ f₀ h1 h2 h3 hpr
    have hprl : ∀ f ∈ l, f.price = s₀.price := fun f hf => hpr f (List.mem_append_left _ hf)
    have hstep1 : List.foldl updateSub s₀ (l ++ [g])
        = updateSub (List.foldl updateSub s₀ l) g := by
      rw [List.foldl_append]
      rfl
    have hstep2 : ∀ x : Subscription,
        List.foldl updateSub x (f₀ :: (l ++ [g]))
          = updateSub (List.foldl updateSub x (f₀ :: l)) g := by
      intro x
      show List.foldl updateSub x ((f₀ :: l) ++ [g]) = _
      rw [List.foldl_append]
      rfl
    rw [hstep1, hstep2]
    by_cases hc : (List.foldl updateSub s₀ l).conf ≤ g.conf
    · have hu : (updateSub (List.foldl updateSub s₀ l) g).conf = g.conf := by
        rw [updateSub_conf]
        exact Nat.max_eq_right hc
      have hconfle : ∀ f ∈ (f₀ :: l), f.conf ≤ g.conf := by
        intro f hf
        rcases List.mem_cons.mp hf with rfl | hf'
        · calc f.conf = s₀.conf := h1.symm
            _ ≤ (List.foldl updateSub s₀ l).conf := by
                rw [foldl_updateSub_conf]
                exact foldl_max_init_le l s₀.conf
            _ ≤ g.conf := hc
        · calc f.conf ≤ (List.foldl updateSub s₀ l).conf := by
                rw [foldl_updateSub_conf]
                exact foldl_max_mem_le l s₀.conf f hf'
            _ ≤ g.conf := hc
      have hv : (List.foldl updateSub (updateSub (List.foldl updateSub s₀ l) g)
          (f₀ :: l)).conf = g.conf := by
        rw [foldl_updateSub_conf, foldl_max_absorb (f₀ :: l) _ (by rw [hu]; exact hconfle)]
        exact hu
      apply updateSub_eq_of
      · exact le_of_eq hv
      · exact hc
      · rw [(foldl_updateSub_base (f₀ :: l) _).1]
        rfl
      · rw [(foldl_updateSub_base (f₀ :: l) _).2.1]
        rfl
      · rw [(foldl_updateSub_base (f₀ :: l) _).2.2]
        rfl
    · have hskip : updateSub (List.foldl updateSub s₀ l) g = List.foldl updateSub s₀ l :=
        updateSub_keep (Nat.lt_of_not_le hc)
      rw [hskip, ih s₀ f₀ h1 h2 h3 hprl, hskip]

theorem foldl_merge1_some {θ : Nat} :
    ∀ (gs : List Fields) (s : Subscription),
      gs.foldl (merge1 θ) (some s) = some (gs.foldl updateSub s) := by
  intro gs
  induction gs with
  | nil =>
    intro s
    rfl
  | cons f gs ih =>
    intro s
    exact ih (updateSub s f)

theorem merge1_none_conf {θ : Nat} :
    ∀ (gs : List Fields) (s : Subscription),
      gs.foldl (merge1 θ) none = some s → θ ≤ s.conf := by
  intro gs
  induction gs with
  | nil =>
    intro s h
    exact absurd h (by simp)
  | cons f gs ih =>
    intro s h
    rw [List.foldl_cons] at h
    by_cases hθ : θ ≤ f.conf
    · have hm1 : merge1 θ none f = some (mkSub f) := by simp [merge1, hθ]
      rw [hm1, foldl_merge1_some] at h
      injection h with h
      rw [← h, foldl_updateSub_conf]
      exact le_trans hθ (foldl_max_init_le gs _)
    · have hm1 : merge1 θ none f = none := by simp [merge1, hθ]
      rw [hm1] at h
      exact ih s h

theorem merge1_idem {θ : Nat} :
    ∀ (gs : List Fields) (pr : Int), (∀ f ∈ gs, f.price = pr) →
      gs.foldl (merge1 θ) (gs.foldl (merge1 θ) none) = gs.foldl (merge1 θ) none := by
  intro gs
  induction gs with
  | nil =>
    intro pr _
    rfl
  | cons f gs ih =>
    intro pr hpr
    by_cases hθ : θ ≤ f.conf
    · have hm1 : merge1 θ none f = some (mkSub f) := by simp [merge1, hθ]
      have hinner : List.foldl (merge1 θ) none (f :: gs)
          = some (List.foldl updateSub (mkSub f) gs) := by
        rw [List.foldl_cons, hm1, foldl_merge1_some]
      rw [hinner, List.foldl_cons]
      have hm2 : merge1 θ (some (List.foldl updateSub (mkSub f) gs)) f
          = some (updateSub (List.foldl updateSub (mkSub f) gs) f) := rfl
      rw [hm2, foldl_merge1_some]
      congr 1
      exact replay_fixpoint gs (mkSub f) f rfl rfl rfl fun g hg => by
        show g.price = (mkSub f).price
        rw [hpr g (List.mem_cons_of_mem _ hg)]
        exact (hpr f (List.mem_cons_self _ _)).symm
    · have hm1 : merge1 θ none f = none := by simp [merge1, hθ]
      have hinner : List.foldl (merge1 θ) none (f :: gs) = List.foldl (merge1 θ) none gs := by
        rw [List.foldl_cons, hm1]
      rw [hinner, List.foldl_cons]
      cases hcase : List.foldl (merge1 θ) none gs with
      | none =>
        rw [hm1]
        exact hcase
      | some s =>
        have hsθ : θ ≤ s.conf := merge1_none_conf gs s hcase
        have hfθ : f.conf < θ := Nat.lt_of_not_le hθ
        have hms : merge1 θ (some s) f = some s := by
          show some (updateSub s f) = some s
          rw [updateSub_keep (by omega)]
        rw [hms, ← hcase]
        exact ih pr fun g hg => hpr g (List.mem_cons_of_mem _ hg)

/-! ## Lemmas: assembling force-rescan idempotence -/

theorem foldl_mergeK_eq_filter {θ : Nat} {k : String × String} :
    ∀ (fs : List Fields) (o : Option Subscription),
      fs.foldl (mergeK θ k) o
        = (fs.filter fun f => decide (keyOf f = k)).foldl (merge1 θ) o := by
  intro fs
  induction fs with
  | nil =>
    intro o
    rfl
  | cons f fs ih =>
    intro o
    by_cases hk : keyOf f = k
    · rw [List.foldl_cons, List.filter_cons_of_pos (by simp [hk]), List.foldl_cons]
      have hstep : mergeK θ k o f = merge1 θ o f := by simp [mergeK, hk]
      rw [hstep]
      exact ih _
    · rw [List.foldl_cons, List.filter_cons_of_neg (by simp [hk])]
      have hstep : mergeK θ k o f = o := by simp [mergeK, hk]
      rw [hstep]
      exact ih _

theorem foldl_mergeK_isSome {θ : Nat} {k : String × String} :
    ∀ (fs : List Fields) (o : Option Subscription),
      o.isSome = true → (fs.foldl (mergeK θ k) o).isSome = true := by
  intro fs
  induction fs with
  | nil =>
    intro o h
    exact h
  | cons f fs ih =>
    intro o h
    rw [List.foldl_cons]
    apply ih
    by_cases hk : keyOf f = k
    · cases o with
      | none => simp at h
      | some s => simp [mergeK, hk, merge1]
    · simpa [mergeK, hk] using h

theorem key_saturation {P : String × String → Int} {θ : Nat}
    (fs : List Fields) (hfs : ∀ f ∈ fs, GoodF P f)
    (f : Fields) (hf : f ∈ fs) (hθ : θ ≤ f.conf) :
    keyOf f ∈ keysOf (fs.foldl (mergeSubs θ) []) := by
  have hGnil : GoodState P θ ([] : List Subscription) := ⟨List.Pairwise.nil, by simp⟩
  apply mem_keys_of_findKey_isSome
  rw [findKey_foldl fs [] hGnil hfs (keyOf f)]
  show (fs.foldl (mergeK θ (keyOf f)) none).isSome = true
  obtain ⟨l₁, l₂, rfl⟩ := List.append_of_mem hf
  rw [List.foldl_append, List.foldl_cons]
  apply foldl_mergeK_isSome
  cases List.foldl (mergeK θ (keyOf f)) none l₁ with
  | some s => simp [mergeK, merge1]
  | none => simp [mergeK, merge1, hθ]

theorem mergeSubs_foldl_idem (θ : Nat) (P : String × String → Int) (fs : List Fields)
    (hfs : ∀ f ∈ fs, GoodF P f) :
    fs.foldl (mergeSubs θ) (fs.foldl (mergeSubs θ) []) = fs.foldl (mergeSubs θ) [] := by
  have hGnil : GoodState P θ ([] : List Subscription) := ⟨List.Pairwise.nil, by simp⟩
  have hGS : GoodState P θ (fs.foldl (mergeSubs θ) []) := goodState_foldl fs [] hGnil hfs
  have hcond : ∀ f ∈ fs, keyOf f ∈ keysOf (fs.foldl (mergeSubs θ) []) ∨ f.conf < θ := by
    intro f hf
    by_cases hθ : θ ≤ f.conf
    · exact Or.inl (key_saturation fs hfs f hf hθ)
    · exact Or.inr (Nat.lt_of_not_le hθ)
  have hGout : GoodState P θ (fs.foldl (mergeSubs θ) (fs.foldl (mergeSubs θ) [])) :=
    goodState_foldl fs _ hGS hfs
  apply eq_of_keys_findKey _ _ hGout.1
  · exact keysOf_foldl_stable fs _ hGS hfs hcond
  · intro k
    rw [findKey_foldl fs _ hGS hfs k]
    have hSk : findKey k (fs.foldl (mergeSubs θ) []) = fs.foldl (mergeK θ k) none := by
      rw [findKey_foldl fs [] hGnil hfs k]
      rfl
    rw [hSk, foldl_mergeK_eq_filter, foldl_mergeK_eq_filter]
    refine merge1_idem _ (P k) ?_
    intro g hg
    have hmem := List.mem_filter.mp hg
    have hkey : keyOf g = k := by simpa using hmem.2
    rw [(hfs g hmem.1).1, hkey]

theorem runScan_true_subs (θ : Nat) :
    ∀ (msgs : List Message) (st : ScanState),
      (runScan θ true msgs st).subs = (fieldsOf msgs).foldl (mergeSubs θ) st.subs := by
  intro msgs
  induction msgs with
  | nil =>
    intro st
    rfl
  | cons m msgs ih =>
    intro st
    show (runScan θ true msgs (processMessage θ true st m)).subs = _
    rw [ih]
    cases hf : m.fields with
    | none =>
      have hsubs : (processMessage θ true st m).subs = st.subs := by
        simp [processMessage, hf]
      have hfo : fieldsOf (m :: msgs) = fieldsOf msgs := by
        simp [fieldsOf, List.filterMap_cons, hf]
      rw [hsubs, hfo]
    | some f =>
      have hsubs : (processMessage θ true st m).subs = mergeSubs θ st.subs f := by
        simp [processMessage, hf]
      have hfo : fieldsOf (m :: msgs) = f :: fieldsOf msgs := by
        simp [fieldsOf, List.filterMap_cons, hf]
      rw [hsubs, hfo, List.foldl_cons]

theorem runScan_false_fresh_subs (θ : Nat) :
    ∀ (msgs : List Message) (st : ScanState),
      (∀ m ∈ msgs, m.id ∉ st.refs) → (msgs.map Message.id).Nodup →
      (runScan θ false msgs st).subs = (fieldsOf msgs).foldl (mergeSubs θ) st.subs := by
  intro msgs
  induction msgs with
  | nil =>
    intro st _ _
    rfl
  | cons m msgs ih =>
    intro st hfresh hnodup
    have hm : m.id ∉ st.refs := hfresh m (List.mem_cons_self _ _)
    have hnodup2 : m.id ∉ msgs.map Message.id ∧ (msgs.map Message.id).Nodup :=
      List.nodup_cons.mp (by simpa using hnodup)
    have hrefs : (processMessage θ false st m).refs = m.id :: st.refs := by
      simp [processMessage, hm]
    have hfresh' : ∀ m' ∈ msgs, m'.id ∉ (processMessage θ false st m).refs := by
      intro m' hm'
      rw [hrefs]
      intro hcontra
      rcases List.mem_cons.mp hcontra with heq | hmem
      · exact hnodup2.1 (heq ▸ List.mem_map_of_mem Message.id hm')
      · exact hfresh m' (List.mem_cons_of_mem _ hm') hmem
    show (runScan θ false msgs (processMessage θ false st m)).subs = _
    rw [ih _ hfresh' hnodup2.2]
    cases hf : m.fields with
    | none =>
      have hsubs : (processMessage θ false st m).subs = st.subs := by
        simp [processMessage, hm, hf]
      have hfo : fieldsOf (m :: msgs) = fieldsOf msgs := by
        simp [fieldsOf, List.filterMap_cons, hf]
      rw [hsubs, hfo]
    | some f =>
      have hsubs : (processMessage θ false st m).subs = mergeSubs θ st.subs f := by
        simp [processMessage, hm, hf]
      have hfo : fieldsOf (m :: msgs) = f :: fieldsOf msgs := by
        simp [fieldsOf, List.filterMap_cons, hf]
      rw [hsubs, hfo, List.foldl_cons]

/-- Counterexample for C2: over an unchanged three-message window whose
classified prices drift (100 → 109 → 118, each within the ±10% band of
the stored price at its merge, but 100 outside the band of the final
118), re-running with `force_rescan` does not reproduce the
`Subscription` state — it creates a duplicate row. -/
theorem claim_C2_counterexample :
    (runScan 60 true
        [⟨1, some ⟨"Netflix", "USD", 100, Period.monthly, 80⟩⟩,
         ⟨2, some ⟨"Netflix", "USD", 109, Period.monthly, 90⟩⟩,
         ⟨3, some ⟨"Netflix", "USD", 118, Period.monthly, 95⟩⟩]
        (runScan 60 false
          [⟨1, some ⟨"Netflix", "USD", 100, Period.monthly, 80⟩⟩,
           ⟨2, some ⟨"Netflix", "USD", 109, Period.monthly, 90⟩⟩,
           ⟨3, some ⟨"Netflix", "USD", 118, Period.monthly, 95⟩⟩]
          initState)).subs
      ≠ (runScan 60 false
          [⟨1, some ⟨"Netflix", "USD", 100, Period.monthly, 80⟩⟩,
           ⟨2, some ⟨"Netflix", "USD", 109, Period.monthly, 90⟩⟩,
           ⟨3, some ⟨"Netflix", "USD", 118, Period.monthly, 95⟩⟩]
          initState).subs := by
  decide

/-- C2 (amended): over any unchanged window, a second
`force_rescan=false` run leaves the whole persistent state untouched
(zero additional writes, classification skipped); a second
`force_rescan=true` run reproduces the same `Subscription` state
provided the window has distinct message ids and its classified fields
report one consistent positive price per identity key (no price
drift). -/
theorem claim_C2 (θ : Nat) (msgs : List Message) :
    runScan θ false msgs (runScan θ false msgs initState) = runScan θ false msgs initState
    ∧ (∀ P : String × String → Int,
        (msgs.map Message.id).Nodup →
        (∀ m ∈ msgs, ∀ f, m.fields = some f → f.price = P (keyOf f) ∧ 0 < f.price) →
        (runScan θ true msgs (runScan θ false msgs initState)).subs
          = (runScan θ false msgs initState).subs) := by
  refine ⟨runScan_idem_noforce θ msgs initState, ?_⟩
  intro P hnodup hcoh
  have hGoodF : ∀ f ∈ fieldsOf msgs, GoodF P f := by
    intro f hf
    simp only [fieldsOf, List.mem_filterMap] at hf
    obtain ⟨m, hm, hmf⟩ := hf
    exact hcoh m hm f hmf
  have hS : (runScan θ false msgs initState).subs
      = (fieldsOf msgs).foldl (mergeSubs θ) [] :=
    runScan_false_fresh_subs θ msgs initState (by intro m _ hmem; simp [initState] at hmem)
      hnodup
  rw [runScan_true_subs θ msgs _, hS]
  exact mergeSubs_foldl_idem θ P (fieldsOf msgs) hGoodF

/-- Witness for C2 at a one-message window with a fixed price. -/
theorem claim_C2_witness :
    runScan 60 false [⟨1, some ⟨"Spotify", "USD", 100, Period.monthly, 80⟩⟩]
        (runScan 60 false [⟨1, some ⟨"Spotify", "USD", 100, Period.monthly, 80⟩⟩]
          initState)
      = runScan 60 false [⟨1, some ⟨"Spotify", "USD", 100, Period.monthly, 80⟩⟩]
          initState
    ∧ (runScan 60 true [⟨1, some ⟨"Spotify", "USD", 100, Period.monthly, 80⟩⟩]
        (runScan 60 false [⟨1, some ⟨"Spotify", "USD", 100, Period.monthly, 80⟩⟩]
          initState)).subs
      = (runScan 60 false [⟨1, some ⟨"Spotify", "USD", 100, Period.monthly, 80⟩⟩]
          initState).subs :=
  ⟨(claim_C2 60 [⟨1, some ⟨"Spotify", "USD", 100, Period.monthly, 80⟩⟩]).1,
    (claim_C2 60 [⟨1, some ⟨"Spotify", "USD", 100, Period.monthly, 80⟩⟩]).2
      (fun _ => 100)
      (by decide)
      (by
        intro m hm f hf
        rcases List.mem_cons.mp hm with rfl | hm'
        · simp only at hf
          injection hf with hf
          subst hf
          exact ⟨rfl, by decide⟩
        · cases hm')⟩

end Unscribe
